import Mathlib

/-!
Shallow embedding of the `serverless-secrets` plugin (src/index.js): the
JSON/YAML-style value model, Node's `util.isDeepStrictEqual`, lodash
`isObject`, the secret-diff check `secretChanged`, the secrets-file parsing
`parseSecretsFile`, the SSM path resolution, and the three operations
`deploySecrets`, `removeDeployedSecrets`, `pullDeployedSecrets` with their
remote-call traces.
-/

-- The JavaScript values that the plugin handles: the results of decoding
-- YAML/JSON text (scalars, arrays, objects). Objects are ordered key-value
-- lists, as JavaScript objects preserve insertion order.
mutual
inductive Value : Type where
  | null : Value
  | bool : Bool → Value
  | num : Int → Value
  | str : String → Value
  | arr : ValueList → Value
  | obj : ValueMap → Value

inductive ValueList : Type where
  | nil : ValueList
  | cons : Value → ValueList → ValueList

inductive ValueMap : Type where
  | nil : ValueMap
  | cons : String → Value → ValueMap → ValueMap
end

/-- Conversion from a Lean list of pairs to the object representation. -/
def ValueMap.ofList : List (String × Value) → ValueMap
  | [] => ValueMap.nil
  | p :: rest => ValueMap.cons p.1 p.2 (ValueMap.ofList rest)

/-- The pairs of an object, in insertion order. -/
def ValueMap.toPairs : ValueMap → List (String × Value)
  | ValueMap.nil => []
  | ValueMap.cons k v tl => (k, v) :: ValueMap.toPairs tl

/-- The elements of an array value as a Lean list. -/
def ValueList.toList : ValueList → List Value
  | ValueList.nil => []
  | ValueList.cons v tl => v :: ValueList.toList tl

/-- Insert a key-value pair into a key-sorted object list, keeping it
sorted (strictly, for distinct keys). -/
def insertSorted (k : String) (v : Value) : ValueMap → ValueMap
  | ValueMap.nil => ValueMap.cons k v ValueMap.nil
  | ValueMap.cons k2 w tl =>
      if k < k2 then ValueMap.cons k v (ValueMap.cons k2 w tl)
      else ValueMap.cons k2 w (insertSorted k v tl)

/-- Sort an object's entries by key (insertion sort). -/
def sortMap : ValueMap → ValueMap
  | ValueMap.nil => ValueMap.nil
  | ValueMap.cons k v tl => insertSorted k v (sortMap tl)

-- Canonical form of a value: object keys sorted at every level. Two
-- values are deep-strict-equal in the sense of Node's
-- `util.isDeepStrictEqual` exactly when their canonical forms coincide
-- (key order is irrelevant for objects, element order matters for arrays,
-- scalars compare by type and value).
mutual
def canon : Value → Value
  | Value.null => Value.null
  | Value.bool b => Value.bool b
  | Value.num n => Value.num n
  | Value.str s => Value.str s
  | Value.arr l => Value.arr (canonList l)
  | Value.obj m => Value.obj (sortMap (canonMap m))

def canonList : ValueList → ValueList
  | ValueList.nil => ValueList.nil
  | ValueList.cons v tl => ValueList.cons (canon v) (canonList tl)

def canonMap : ValueMap → ValueMap
  | ValueMap.nil => ValueMap.nil
  | ValueMap.cons k v tl => ValueMap.cons k (canon v) (canonMap tl)
end

deriving instance DecidableEq for Value

-- Structural (syntactic) equality test on values.
mutual
def valueBeq : Value → Value → Bool
  | Value.null, w => match w with | Value.null => true | _ => false
  | Value.bool a, w => match w with | Value.bool b => a == b | _ => false
  | Value.num a, w => match w with | Value.num b => a == b | _ => false
  | Value.str a, w => match w with | Value.str b => a == b | _ => false
  | Value.arr a, w => match w with | Value.arr b => listBeq a b | _ => false
  | Value.obj a, w => match w with | Value.obj b => mapBeq a b | _ => false

def listBeq : ValueList → ValueList → Bool
  | ValueList.nil, w => match w with | ValueList.nil => true | _ => false
  | ValueList.cons v tl, w =>
      match w with
      | ValueList.cons v2 tl2 => valueBeq v v2 && listBeq tl tl2
      | _ => false

def mapBeq : ValueMap → ValueMap → Bool
  | ValueMap.nil, w => match w with | ValueMap.nil => true | _ => false
  | ValueMap.cons k v tl, w =>
      match w with
      | ValueMap.cons k2 v2 tl2 => k == k2 && valueBeq v v2 && mapBeq tl tl2
      | _ => false
end

/-- Node `util.isDeepStrictEqual` on the embedded value type: deep
structural equality, insensitive to object key order, sensitive to array
element order, sensitive to scalar type (`1` is not `"1"`). -/
def isDeepStrictEqual (a b : Value) : Bool :=
  valueBeq (canon a) (canon b)

/-- lodash `isObject`: true for objects and arrays (any non-null value of
JavaScript type `object`), false for `null` and all scalars. -/
def isObject : Value → Bool
  | Value.obj _ => true
  | Value.arr _ => true
  | _ => false

/-- The fatal outcomes an operation can end in (src/index.js throws plain
strings / lets library exceptions propagate; the spec names them
`MissingConfigError`, `InvalidFormatError`, etc.). -/
inductive PluginError : Type where
  | missingConfig : PluginError
  | invalidFormat : PluginError
  | yamlError : PluginError
  | remoteError : PluginError
  | jsonError : PluginError
deriving DecidableEq

/-- A `string | undefined` configuration field is "falsy" when absent or
the empty string (JavaScript truthiness). -/
def falsyStr : Option String → Bool
  | none => true
  | some s => s == ""

/-- src/index.js line 51 and 167:
`this.options?.ssmPath || ` ``/${service}-${stage}/secrets/`` — the
namespace prefix is the override when present and truthy, otherwise the
computed default. -/
def resolveSsmPath (ssmPath : Option String) (service stage : String) : String :=
  match ssmPath with
  | some s => if s = "" then "/" ++ service ++ "-" ++ stage ++ "/secrets/" else s
  | none => "/" ++ service ++ "-" ++ stage ++ "/secrets/"

/-- src/index.js `parseSecretsFile` (lines 69-83). `yload` embeds the
`yaml.load` call (`none` = the library throws); `file` is `options.file`;
`fileContent` is the state of the configured file (`none` = `existsSync`
is false). Throws the missing-config string on a falsy path, returns `{}`
when the file does not exist, and accepts the decoded root iff lodash
`isObject` holds of it. -/
def parseSecretsFile (yload : String → Option Value) (file : Option String)
    (fileContent : Option String) : Except PluginError Value :=
  match file with
  | none => Except.error PluginError.missingConfig
  | some fp =>
    if fp = "" then Except.error PluginError.missingConfig
    else
      match fileContent with
      | none => Except.ok (Value.obj ValueMap.nil)
      | some content =>
        match yload content with
        | none => Except.error PluginError.yamlError
        | some secrets =>
          if isObject secrets then Except.ok secrets
          else Except.error PluginError.invalidFormat

/-- src/index.js `secretChanged` (lines 98-111): any failure of the
awaited `getParameter` request (or of decoding its value) is caught and
reported as "changed"; on success the remote raw string is decoded with
`yaml.load` and compared to the local value with `isDeepStrictEqual`. -/
def secretChanged (yload : String → Option Value) (fetched : Except Unit String)
    (newSecret : Value) : Bool :=
  match fetched with
  | Except.error _ => true
  | Except.ok raw =>
    match yload raw with
    | none => true
    | some currentSecret => !(isDeepStrictEqual newSecret currentSecret)

/-- The opening-brace character. -/
def lbrace : Char := Char.ofNat 123

/-- The closing-brace character. -/
def rbrace : Char := Char.ofNat 125

/-- The decimal digit characters. -/
def digitChar : Nat → Char
  | 0 => '0'
  | 1 => '1'
  | 2 => '2'
  | 3 => '3'
  | 4 => '4'
  | 5 => '5'
  | 6 => '6'
  | 7 => '7'
  | 8 => '8'
  | _ => '9'

/-- Numeric value of a decimal digit character. -/
def digitVal : Char → Nat
  | '0' => 0
  | '1' => 1
  | '2' => 2
  | '3' => 3
  | '4' => 4
  | '5' => 5
  | '6' => 6
  | '7' => 7
  | '8' => 8
  | _ => 9

/-- Decimal digits of a natural number, most significant first, prepended
to `acc`; `fuel` bounds the recursion (any `fuel > n` is enough). -/
def toDigitsAux : Nat → Nat → List Char → List Char
  | 0, _, acc => acc
  | fuel + 1, n, acc =>
    if n < 10 then digitChar n :: acc
    else toDigitsAux fuel (n / 10) (digitChar (n % 10) :: acc)

/-- Decimal digit characters of a natural number. -/
def natChars (n : Nat) : List Char := toDigitsAux (n + 1) n []

/-- Decimal rendering of an integer (as `JSON.stringify` / `String()`
render JavaScript integers). -/
def intChars (n : Int) : List Char :=
  if n < 0 then '-' :: natChars n.natAbs else natChars n.toNat

/-- Decimal rendering of a natural number as a string (used for
`Object.entries` of an array, whose keys are the indices "0", "1", …). -/
def natToString (n : Nat) : String := String.mk (natChars n)

/-- Escape quote and backslash characters in string content. -/
def escapeChars : List Char → List Char
  | [] => []
  | c :: rest =>
    if c = '"' ∨ c = '\\' then '\\' :: c :: escapeChars rest
    else c :: escapeChars rest

/-- The serialization of an object key: quoted, escaped string. -/
def keyChars (k : String) : List Char := '"' :: escapeChars k.data ++ ['"']

-- Serializer for the structured-text encoding (the flow/JSON-style
-- fragment shared by JSON and YAML): scalars rendered literally, strings
-- quoted with escapes, arrays bracketed comma-separated, objects braced
-- with quoted keys.
mutual
def encChars : Value → List Char
  | Value.null => ['n', 'u', 'l', 'l']
  | Value.bool true => ['t', 'r', 'u', 'e']
  | Value.bool false => ['f', 'a', 'l', 's', 'e']
  | Value.num n => intChars n
  | Value.str s => '"' :: escapeChars s.data ++ ['"']
  | Value.arr l => '[' :: encItemsAux l ++ [']']
  | Value.obj m => lbrace :: encMembersAux m ++ [rbrace]

def encItemsAux : ValueList → List Char
  | ValueList.nil => []
  | ValueList.cons v ValueList.nil => encChars v
  | ValueList.cons v (ValueList.cons w tl) =>
      encChars v ++ ',' :: encItemsAux (ValueList.cons w tl)

def encMembersAux : ValueMap → List Char
  | ValueMap.nil => []
  | ValueMap.cons k v ValueMap.nil => keyChars k ++ ':' :: encChars v
  | ValueMap.cons k v (ValueMap.cons k2 w tl) =>
      (keyChars k ++ ':' :: encChars v) ++ ',' :: encMembersAux (ValueMap.cons k2 w tl)
end

-- Body of a quoted string: characters up to the next unescaped quote,
-- with escape sequences resolved; returns the content and the remainder.
-- `parseStrEsc` handles the character following a backslash.
mutual
def parseStrBody : List Char → Option (List Char × List Char)
  | [] => none
  | c :: rest =>
    if c = '"' then some ([], rest)
    else if c = '\\' then parseStrEsc rest
    else
      match parseStrBody rest with
      | none => none
      | some (cs2, r) => some (c :: cs2, r)

def parseStrEsc : List Char → Option (List Char × List Char)
  | [] => none
  | d :: rest2 =>
    match parseStrBody rest2 with
    | none => none
    | some (cs2, r) => some (d :: cs2, r)
end

/-- Consume an expected literal character sequence from the input. -/
def expectChars : List Char → List Char → Option (List Char)
  | [], cs => some cs
  | _ :: _, [] => none
  | l :: lits, c :: cs => if c = l then expectChars lits cs else none

/-- Split the longest run of leading decimal digits from the input. -/
def takeDigits : List Char → List Char × List Char
  | [] => ([], [])
  | c :: rest =>
    if c.isDigit then
      match takeDigits rest with
      | (ds, r) => (c :: ds, r)
    else ([], c :: rest)

/-- Value of a digit string, most significant first. -/
def digitsToNat (ds : List Char) : Nat :=
  ds.foldl (fun acc c => 10 * acc + digitVal c) 0

-- Recursive-descent reader for the structured-text encoding. `fuel`
-- bounds the nesting of recursive calls (any fuel at least the lexical
-- depth of the input is enough); every cross-call decreases it.
mutual
def parseVal : Nat → List Char → Option (Value × List Char)
  | 0, _ => none
  | _ + 1, [] => none
  | fuel + 1, c :: cs =>
    if c = 'n' then
      match expectChars ['u', 'l', 'l'] cs with
      | some rest => some (Value.null, rest)
      | none => none
    else if c = 't' then
      match expectChars ['r', 'u', 'e'] cs with
      | some rest => some (Value.bool true, rest)
      | none => none
    else if c = 'f' then
      match expectChars ['a', 'l', 's', 'e'] cs with
      | some rest => some (Value.bool false, rest)
      | none => none
    else if c = '"' then
      match parseStrBody cs with
      | none => none
      | some (body, rest) => some (Value.str (String.mk body), rest)
    else if c = '[' then parseArrTail fuel cs
    else if c = lbrace then parseObjTail fuel cs
    else if c = '-' then
      if (takeDigits cs).1 = [] then none
      else some (Value.num (-(Int.ofNat (digitsToNat (takeDigits cs).1))), (takeDigits cs).2)
    else if c.isDigit then
      some (Value.num (Int.ofNat (digitsToNat (takeDigits (c :: cs)).1)), (takeDigits (c :: cs)).2)
    else none

def parseArrTail : Nat → List Char → Option (Value × List Char)
  | 0, _ => none
  | _ + 1, [] => none
  | fuel + 1, d :: cs2 =>
    if d = ']' then some (Value.arr ValueList.nil, cs2)
    else
      match parseItems fuel (d :: cs2) with
      | none => none
      | some (items, rest) => some (Value.arr items, rest)

def parseObjTail : Nat → List Char → Option (Value × List Char)
  | 0, _ => none
  | _ + 1, [] => none
  | fuel + 1, d :: cs2 =>
    if d = rbrace then some (Value.obj ValueMap.nil, cs2)
    else
      match parseMembers fuel (d :: cs2) with
      | none => none
      | some (members, rest2) => some (Value.obj members, rest2)

def parseItems : Nat → List Char → Option (ValueList × List Char)
  | 0, _ => none
  | fuel + 1, cs =>
    match parseVal fuel cs with
    | none => none
    | some (v, rest) =>
      match rest with
      | [] => none
      | d :: rest2 =>
        if d = ',' then
          match parseItems fuel rest2 with
          | none => none
          | some (tl, rest3) => some (ValueList.cons v tl, rest3)
        else if d = ']' then some (ValueList.cons v ValueList.nil, rest2)
        else none

def parseMembers : Nat → List Char → Option (ValueMap × List Char)
  | 0, _ => none
  | _ + 1, [] => none
  | fuel + 1, c :: cs2 =>
    if c = '"' then
      match parseStrBody cs2 with
      | none => none
      | some (kbody, rest) =>
        match rest with
        | [] => none
        | d0 :: rest2 =>
          if d0 = ':' then
            match parseVal fuel rest2 with
            | none => none
            | some (v, rest3) =>
              match rest3 with
              | [] => none
              | d :: rest4 =>
                if d = ',' then
                  match parseMembers fuel rest4 with
                  | none => none
                  | some (tl, rest5) => some (ValueMap.cons (String.mk kbody) v tl, rest5)
                else if d = rbrace then
                  some (ValueMap.cons (String.mk kbody) v ValueMap.nil, rest4)
                else none
          else none
    else none
end

/-- Read a full document from characters: one value consuming the whole
input. The fuel `3 * length + 3` bounds the reader's call depth (the
engine's own recursion limit); it exceeds the depth reachable on any
encoded document. -/
def decodeChars (cs : List Char) : Option Value :=
  match parseVal (3 * cs.length + 3) cs with
  | some (v, []) => some v
  | _ => none

/-- Model of `JSON.stringify` on the embedded value type (as used by
`pushSecret`, src/index.js line 88, and by `pullDeployedSecrets` through
`JSON.parse`): no whitespace, quoted escaped strings, decimal integers. -/
def jsonStringify (v : Value) : String := String.mk (encChars v)

/-- Model of strict `JSON.parse` (as used by `pullDeployedSecrets`,
src/index.js line 172): accepts only the structured-text encoding —
in particular a bare unquoted scalar word such as `pw1` is rejected. -/
def jsonParse (s : String) : Option Value := decodeChars s.data

/-- Modelled from the spec: `SecretsFileCodec.encode` — the secrets-file
serializer, implemented in the real system by the external `js-yaml`
library's `dump` (code not part of this repository). Modelled as the
concrete structured-text (flow-style, YAML-compatible) syntax emitted by
`encChars`. -/
def SecretsFileCodec.encode (d : Value) : String := String.mk (encChars d)

/-- Modelled from the spec: `SecretsFileCodec.decode` — the secrets-file
reader, implemented in the real system by the external `js-yaml` library's
`load` (code not part of this repository). Modelled as the reader of the
same structured-text syntax, so that the pair forms the codec whose
round-trip contract the spec states. -/
def SecretsFileCodec.decode (s : String) : Option Value := decodeChars s.data

/-- Does the input begin with a decimal digit? (Whether a following
character could extend a number literal.) -/
def digitStart : List Char → Bool
  | [] => false
  | c :: _ => c.isDigit

-- Call-depth bound sufficient for the reader on an encoded value: each
-- cross-call of the reader consumes one unit of fuel.
mutual
def Value.fuelNeed : Value → Nat
  | Value.arr l => 2 + ValueList.fuelNeed l
  | Value.obj m => 2 + ValueMap.fuelNeed m
  | _ => 1

def ValueList.fuelNeed : ValueList → Nat
  | ValueList.nil => 0
  | ValueList.cons v tl => 1 + max (Value.fuelNeed v) (ValueList.fuelNeed tl)

def ValueMap.fuelNeed : ValueMap → Nat
  | ValueMap.nil => 0
  | ValueMap.cons _ v tl => 1 + max (Value.fuelNeed v) (ValueMap.fuelNeed tl)
end

/-- The `custom.secrets` configuration surface consumed by the plugin:
`file` (secrets file path) and `ssmPath` (optional namespace override). -/
structure Config : Type where
  file : Option String
  ssmPath : Option String

/-- Ambient service identity (`serverless.service.service` and
`provider.stage`). -/
structure ServiceInfo : Type where
  service : String
  stage : String

/-- One remote request issued through `this.aws.request`, with the
request fields that identify it. -/
inductive SSMCall : Type where
  | getParameter : String → SSMCall
  | putParameter : String → String → SSMCall
  | getParametersByPath : String → SSMCall
  | deleteParameters : List String → SSMCall
  | describeStacks : SSMCall
deriving DecidableEq

/-- The remote store's behavior during one run: result of each request
kind (`Except.error` = the awaited request rejects). `list` returns the
`(Name, Value)` pairs of `getParametersByPath`. -/
structure Remote : Type where
  get : String → Except Unit String
  put : String → String → Except Unit Unit
  list : String → Except Unit (List (String × String))
  del : List String → Except Unit Unit

/-- Concatenation of a list of traces. -/
def concatAll : List (List SSMCall) → List SSMCall
  | [] => []
  | t :: rest => t ++ concatAll rest

/-- `Object.entries` on a decoded secrets root: an object's pairs in
insertion order; an array's elements keyed by their decimal indices;
empty for anything else (unreachable after the `isObject` check). -/
def valueEntries : Value → List (String × Value)
  | Value.obj m => m.toPairs
  | Value.arr l => l.toList.enum.map (fun p => (natToString p.1, p.2))
  | _ => []

/-- JavaScript string coercion of a scalar value, as the raw `Value`
field of a put request for a non-object secret. -/
def scalarString : Value → String
  | Value.null => "null"
  | Value.bool true => "true"
  | Value.bool false => "false"
  | Value.num n => String.mk (intChars n)
  | Value.str s => s
  | Value.arr _ => ""
  | Value.obj _ => ""

/-- src/index.js `pushSecret` (line 88): the stored string is
`isObject(secret) ? JSON.stringify(secret) : secret` — objects and arrays
are serialized to JSON text, scalars are written as-is (a scalar string
verbatim). -/
def pushValue (secret : Value) : String :=
  if isObject secret then jsonStringify secret else scalarString secret

/-- One entry's work inside `deploySecrets` (src/index.js lines 55-63):
fetch at `ssmPath + name`, decide `secretChanged`, and if changed issue
`putParameter` at the same `ssmPath + name` with the `pushSecret` value.
Returns the remote calls made and whether the entry's put rejected. -/
def deployEntry (yload : String → Option Value) (r : Remote) (ssmPath : String)
    (p : String × Value) : List SSMCall × Bool :=
  let path := ssmPath ++ p.1
  if secretChanged yload (r.get path) p.2 then
    match r.put path (pushValue p.2) with
    | Except.ok _ => ([SSMCall.getParameter path, SSMCall.putParameter path (pushValue p.2)], false)
    | Except.error _ => ([SSMCall.getParameter path, SSMCall.putParameter path (pushValue p.2)], true)
  else ([SSMCall.getParameter path], false)

/-- src/index.js `deploySecrets` (lines 50-67): resolve the namespace
prefix, parse the secrets file, and run every entry's diff-and-put;
`Promise.all` starts all entry tasks (so every entry's calls are made)
and rejects when any entry's put rejected. Returns the remote-call trace
and the overall outcome. -/
def deploySecrets (cfg : Config) (svc : ServiceInfo) (fileContent : Option String)
    (yload : String → Option Value) (r : Remote) :
    List SSMCall × Except PluginError Unit :=
  match parseSecretsFile yload cfg.file fileContent with
  | Except.error e => ([], Except.error e)
  | Except.ok secrets =>
    let ssmPath := resolveSsmPath cfg.ssmPath svc.service svc.stage
    let results := (valueEntries secrets).map (deployEntry yload r ssmPath)
    (concatAll (results.map Prod.fst),
     if results.any (fun q => q.2) then Except.error PluginError.remoteError
     else Except.ok ())

/-- src/index.js `removeDeployedSecrets` (lines 133-148). `previous`
embeds `getPreviousSSMPath` (the CloudFormation `describeStacks` lookup:
`Except.error` = the awaited request rejects, `Option` = the recorded
`SsmBasePath` output, if any). The listing at `ssmPath + "/secrets"` is
awaited and its failure propagates; `removeSecrets` is invoked WITHOUT
`await` (line 145), so the delete request is issued but its result —
including rejection — is discarded and the operation still succeeds. -/
def removeDeployedSecrets (previous : Except Unit (Option String)) (r : Remote) :
    List SSMCall × Except PluginError Unit :=
  match previous with
  | Except.error _ => ([SSMCall.describeStacks], Except.error PluginError.remoteError)
  | Except.ok none => ([SSMCall.describeStacks], Except.ok ())
  | Except.ok (some ssmPath) =>
    match r.list (ssmPath ++ "/secrets") with
    | Except.error _ =>
        ([SSMCall.describeStacks, SSMCall.getParametersByPath (ssmPath ++ "/secrets")],
         Except.error PluginError.remoteError)
    | Except.ok params =>
        let names := params.map Prod.fst
        ([SSMCall.describeStacks, SSMCall.getParametersByPath (ssmPath ++ "/secrets"),
          SSMCall.deleteParameters names],
         Except.ok ())

/-- Remove the first occurrence of `pat` from `cs` (JavaScript
`String.prototype.replace` with a string pattern and empty replacement
replaces only the first occurrence). -/
def dropSub (pat : List Char) : List Char → List Char
  | [] => []
  | c :: rest =>
    if pat.isPrefixOf (c :: rest) then (c :: rest).drop pat.length
    else c :: dropSub pat rest

/-- JavaScript `s.replace(pat, "")`: remove the first occurrence of
`pat`. -/
def replaceFirst (s pat : String) : String := String.mk (dropSub pat.data s.data)

/-- The per-entry mapping of `pullDeployedSecrets` (lines 170-174): strip
the prefix from each name and `JSON.parse` each value; the first parse
exception aborts the whole mapping. -/
def decodeEntries (ssmPath : String) : List (String × String) → Option (List (String × Value))
  | [] => some []
  | (n, v) :: rest =>
    match jsonParse v with
    | none => none
    | some val =>
      match decodeEntries ssmPath rest with
      | none => none
      | some tl => some ((replaceFirst n ssmPath, val) :: tl)

/-- `Object.fromEntries`: build an object from pairs; a repeated key keeps
its first position but takes the last value. -/
def ValueMap.setKey (k : String) (v : Value) : ValueMap → ValueMap
  | ValueMap.nil => ValueMap.cons k v ValueMap.nil
  | ValueMap.cons k2 w tl =>
    if k2 = k then ValueMap.cons k2 v tl
    else ValueMap.cons k2 w (ValueMap.setKey k v tl)

/-- `Object.fromEntries` over a pair list. -/
def fromEntriesJS (l : List (String × Value)) : ValueMap :=
  l.foldl (fun m p => ValueMap.setKey p.1 p.2 m) ValueMap.nil

/-- src/index.js `pullDeployedSecrets` (lines 162-179): require a truthy
`file` path, resolve the prefix, list the parameters under it (awaited —
failure propagates), strip the prefix from each name and `JSON.parse`
each value (an exception propagates and nothing is written), assemble
with `Object.fromEntries` and write the encoded document to the file.
Returns the remote-call trace and, on success, the written
`(path, content)`. -/
def pullDeployedSecrets (cfg : Config) (svc : ServiceInfo) (r : Remote) :
    List SSMCall × Except PluginError (String × String) :=
  match cfg.file with
  | none => ([], Except.error PluginError.missingConfig)
  | some fp =>
    if fp = "" then ([], Except.error PluginError.missingConfig)
    else
      let ssmPath := resolveSsmPath cfg.ssmPath svc.service svc.stage
      match r.list ssmPath with
      | Except.error _ =>
          ([SSMCall.getParametersByPath ssmPath], Except.error PluginError.remoteError)
      | Except.ok params =>
        match decodeEntries ssmPath params with
        | none => ([SSMCall.getParametersByPath ssmPath], Except.error PluginError.jsonError)
        | some entries =>
            ([SSMCall.getParametersByPath ssmPath],
             Except.ok (fp, SecretsFileCodec.encode (Value.obj (fromEntriesJS entries))))

/-! Lemmas about deep structural equality. -/

mutual
theorem valueBeq_refl : (v : Value) → valueBeq v v = true
  | Value.null => rfl
  | Value.bool b => by simp [valueBeq]
  | Value.num n => by simp [valueBeq]
  | Value.str s => by simp [valueBeq]
  | Value.arr l => listBeq_refl l
  | Value.obj m => mapBeq_refl m

theorem listBeq_refl : (l : ValueList) → listBeq l l = true
  | ValueList.nil => rfl
  | ValueList.cons v tl => by
      simp [listBeq, valueBeq_refl v, listBeq_refl tl]

theorem mapBeq_refl : (m : ValueMap) → mapBeq m m = true
  | ValueMap.nil => rfl
  | ValueMap.cons k v tl => by
      simp [mapBeq, valueBeq_refl v, mapBeq_refl tl]
end

theorem isDeepStrictEqual_refl (v : Value) : isDeepStrictEqual v v = true :=
  valueBeq_refl (canon v)

/-- Inserting two pairs with distinct keys into a sorted map commutes. -/
theorem insertSorted_comm (k k' : String) (v v' : Value) (h : k ≠ k') :
    (m : ValueMap) →
      insertSorted k v (insertSorted k' v' m) = insertSorted k' v' (insertSorted k v m)
  | ValueMap.nil => by
    rcases lt_trichotomy k k' with h1 | h1 | h1
    · simp [insertSorted, h1, not_lt_of_lt h1]
    · exact absurd h1 h
    · simp [insertSorted, h1, not_lt_of_lt h1]
  | ValueMap.cons k2 w tl => by
    have ih := insertSorted_comm k k' v v' h tl
    by_cases hk : k < k2 <;> by_cases hk' : k' < k2
    · rcases lt_trichotomy k k' with h1 | h1 | h1
      · simp [insertSorted, hk, hk', h1, not_lt_of_lt h1]
      · exact absurd h1 h
      · simp [insertSorted, hk, hk', h1, not_lt_of_lt h1]
    · have h1 : k < k' := lt_of_lt_of_le hk (le_of_not_lt hk')
      simp [insertSorted, hk, hk', h1, not_lt_of_lt h1]
    · have h1 : k' < k := lt_of_lt_of_le hk' (le_of_not_lt hk)
      simp [insertSorted, hk, hk', h1, not_lt_of_lt h1]
    · simp [insertSorted, hk, hk', ih]

/-- `sortMap` of a converted pair list is a fold of sorted insertion. -/
theorem sortMap_ofList (l : List (String × Value)) :
    sortMap (ValueMap.ofList l) =
      l.foldr (fun p m => insertSorted p.1 p.2 m) ValueMap.nil := by
  induction l with
  | nil => rfl
  | cons p rest ih => simp [ValueMap.ofList, sortMap, ih]

/-- Folding sorted insertion over a pair list with distinct keys is
insensitive to permutation. -/
theorem foldr_insertSorted_perm {a b : List (String × Value)} (p : a.Perm b) :
    (a.map Prod.fst).Nodup →
      a.foldr (fun q m => insertSorted q.1 q.2 m) ValueMap.nil =
        b.foldr (fun q m => insertSorted q.1 q.2 m) ValueMap.nil := by
  induction p with
  | nil => intro _; rfl
  | cons x p ih =>
    intro hnd
    simp only [List.map_cons, List.nodup_cons] at hnd
    simp [List.foldr_cons, ih hnd.2]
  | swap x y l =>
    intro hnd
    simp only [List.map_cons, List.nodup_cons, List.mem_cons, List.mem_map] at hnd
    have hxy : y.1 ≠ x.1 := fun hexact => hnd.1 (Or.inl hexact)
    simp only [List.foldr_cons]
    exact insertSorted_comm y.1 x.1 y.2 x.2 hxy _
  | trans p1 p2 ih1 ih2 =>
    intro hnd
    have hnd2 := ((p1.map Prod.fst).nodup_iff).mp hnd
    exact (ih1 hnd).trans (ih2 hnd2)

/-- `canonMap` of a converted pair list canonicalizes each value. -/
theorem canonMap_ofList (l : List (String × Value)) :
    canonMap (ValueMap.ofList l) =
      ValueMap.ofList (l.map (fun p => (p.1, canon p.2))) := by
  induction l with
  | nil => rfl
  | cons p rest ih => simp [ValueMap.ofList, canonMap, ih]

/-- Two objects whose entry lists are permutations of one another (with
distinct keys) are deep-strict-equal. -/
theorem isDeepStrictEqual_obj_perm {a b : List (String × Value)} (p : a.Perm b)
    (hnd : (a.map Prod.fst).Nodup) :
    isDeepStrictEqual (Value.obj (ValueMap.ofList a)) (Value.obj (ValueMap.ofList b)) = true := by
  have hperm : (a.map (fun q => (q.1, canon q.2))).Perm (b.map (fun q => (q.1, canon q.2))) :=
    p.map _
  have hnd2 : ((a.map (fun q => (q.1, canon q.2))).map Prod.fst).Nodup := by
    rw [List.map_map]
    exact hnd
  have hsort :
      sortMap (canonMap (ValueMap.ofList a)) = sortMap (canonMap (ValueMap.ofList b)) := by
    rw [canonMap_ofList, canonMap_ofList, sortMap_ofList, sortMap_ofList]
    exact foldr_insertSorted_perm hperm hnd2
  show valueBeq (canon (Value.obj (ValueMap.ofList a))) (canon (Value.obj (ValueMap.ofList b))) = true
  simp only [canon, hsort]
  exact valueBeq_refl _

/-! Lemmas about the decimal digit rendering. -/

theorem digitVal_digitChar {d : Nat} (h : d < 10) : digitVal (digitChar d) = d := by
  interval_cases d <;> rfl

theorem isDigit_digitChar {d : Nat} (h : d < 10) : (digitChar d).isDigit = true := by
  interval_cases d <;> rfl

theorem toDigitsAux_irrel : ∀ (n fuel fuel' : Nat) (acc : List Char), n < fuel → n < fuel' →
    toDigitsAux fuel n acc = toDigitsAux fuel' n acc := by
  intro n
  induction n using Nat.strong_induction_on with
  | _ n ih =>
    intro fuel fuel' acc h h'
    match fuel, h, fuel', h' with
    | f + 1, h, f' + 1, h' =>
      by_cases h10 : n < 10
      · simp [toDigitsAux, h10]
      · simp only [toDigitsAux, if_neg h10]
        exact ih (n / 10) (by omega) f f' _ (by omega) (by omega)

theorem toDigitsAux_append : ∀ (n fuel : Nat) (acc : List Char), n < fuel →
    toDigitsAux fuel n acc = toDigitsAux fuel n [] ++ acc := by
  intro n
  induction n using Nat.strong_induction_on with
  | _ n ih =>
    intro fuel acc h
    match fuel, h with
    | f + 1, h =>
      by_cases h10 : n < 10
      · simp [toDigitsAux, h10]
      · simp only [toDigitsAux, if_neg h10]
        rw [ih (n / 10) (by omega) f _ (by omega),
            ih (n / 10) (by omega) f [digitChar (n % 10)] (by omega)]
        simp

theorem natChars_lt10 {n : Nat} (h : n < 10) : natChars n = [digitChar n] := by
  simp [natChars, toDigitsAux, h]

theorem natChars_ge10 {n : Nat} (h : ¬ n < 10) :
    natChars n = natChars (n / 10) ++ [digitChar (n % 10)] := by
  show toDigitsAux (n + 1) n [] = _
  rw [show toDigitsAux (n + 1) n [] = toDigitsAux n (n / 10) [digitChar (n % 10)] from by
        simp [toDigitsAux, h],
      toDigitsAux_irrel (n / 10) n (n / 10 + 1) _ (by omega) (by omega),
      toDigitsAux_append (n / 10) (n / 10 + 1) _ (by omega)]
  rfl

theorem digitsToNat_append_digit (xs : List Char) (d : Char) :
    digitsToNat (xs ++ [d]) = 10 * digitsToNat xs + digitVal d := by
  simp [digitsToNat, List.foldl_append]

theorem digitsToNat_natChars : ∀ n, digitsToNat (natChars n) = n := by
  intro n
  induction n using Nat.strong_induction_on with
  | _ n ih =>
    by_cases h10 : n < 10
    · simp [natChars_lt10 h10, digitsToNat, digitVal_digitChar h10]
    · rw [natChars_ge10 h10, digitsToNat_append_digit, ih (n / 10) (by omega),
          digitVal_digitChar (by omega : n % 10 < 10)]
      omega

theorem natChars_ne_nil (n : Nat) : natChars n ≠ [] := by
  by_cases h10 : n < 10
  · simp [natChars_lt10 h10]
  · simp [natChars_ge10 h10]

theorem natChars_all_digits : ∀ n, ∀ c ∈ natChars n, c.isDigit = true := by
  intro n
  induction n using Nat.strong_induction_on with
  | _ n ih =>
    intro c hc
    by_cases h10 : n < 10
    · rw [natChars_lt10 h10] at hc
      simp at hc
      subst hc
      exact isDigit_digitChar h10
    · rw [natChars_ge10 h10] at hc
      rcases List.mem_append.mp hc with hm | hm
      · exact ih (n / 10) (by omega) c hm
      · simp at hm
        subst hm
        exact isDigit_digitChar (by omega : n % 10 < 10)

/-! Lemmas about the reader's lexical helpers. -/

theorem takeDigits_split : ∀ (ds rest : List Char), (∀ c ∈ ds, c.isDigit = true) →
    digitStart rest = false → takeDigits (ds ++ rest) = (ds, rest) := by
  intro ds
  induction ds with
  | nil =>
    intro rest _ hrest
    cases rest with
    | nil => rfl
    | cons c r =>
      simp [digitStart] at hrest
      simp [takeDigits, hrest]
  | cons c ds' ih =>
    intro rest hds hrest
    have hc := hds c (by simp)
    simp [takeDigits, hc, ih rest (fun x hx => hds x (by simp [hx])) hrest]

theorem parseStrBody_escape : ∀ (cs rest : List Char),
    parseStrBody (escapeChars cs ++ '"' :: rest) = some (cs, rest) := by
  intro cs
  induction cs with
  | nil => intro rest; simp [escapeChars, parseStrBody]
  | cons c cs' ih =>
    intro rest
    by_cases hc : c = '"' ∨ c = '\\'
    · simp [escapeChars, hc, parseStrBody, parseStrEsc, ih]
    · push_neg at hc
      simp [escapeChars, hc, parseStrBody, hc.1, hc.2, ih]

theorem stringMk_data (s : String) : String.mk s.data = s := rfl

/-! Facts about heads of encoded values and special characters. -/

theorem encChars_ne_nil : ∀ v : Value, encChars v ≠ []
  | Value.null => by simp [encChars]
  | Value.bool true => by simp [encChars]
  | Value.bool false => by simp [encChars]
  | Value.num n => by
      simp only [encChars, intChars]
      split
      · simp
      · exact natChars_ne_nil _
  | Value.str s => by simp [encChars]
  | Value.arr l => by simp [encChars]
  | Value.obj m => by simp [encChars]

theorem isDigit_ne_specials {c : Char} (h : c.isDigit = true) :
    c ≠ 'n' ∧ c ≠ 't' ∧ c ≠ 'f' ∧ c ≠ '"' ∧ c ≠ '[' ∧ c ≠ lbrace ∧ c ≠ '-' ∧ c ≠ ']' := by
  refine ⟨?_, ?_, ?_, ?_, ?_, ?_, ?_, ?_⟩ <;>
    (intro hc; subst hc; exact absurd h (by decide))

theorem encChars_head_ne_rbracket : ∀ (v : Value) (d : Char) (cs : List Char),
    encChars v = d :: cs → d ≠ ']'
  | Value.null, d, cs => by intro h; simp [encChars] at h; rw [← h.1]; decide
  | Value.bool true, d, cs => by intro h; simp [encChars] at h; rw [← h.1]; decide
  | Value.bool false, d, cs => by intro h; simp [encChars] at h; rw [← h.1]; decide
  | Value.num n, d, cs => by
      intro h
      simp only [encChars, intChars] at h
      split at h
      · simp at h
        rw [← h.1]; decide
      · have hd : d ∈ natChars n.toNat := by rw [h]; simp
        exact (isDigit_ne_specials (natChars_all_digits _ d hd)).2.2.2.2.2.2.2
  | Value.str s, d, cs => by intro h; simp [encChars] at h; rw [← h.1]; decide
  | Value.arr l, d, cs => by intro h; simp [encChars] at h; rw [← h.1]; decide
  | Value.obj m, d, cs => by intro h; simp [encChars] at h; rw [← h.1]; decide

theorem data_stringMk (l : List Char) : (String.mk l).data = l := rfl

theorem lbrace_ne_n : (lbrace = 'n') = False := by decide
theorem lbrace_ne_t : (lbrace = 't') = False := by decide
theorem lbrace_ne_f : (lbrace = 'f') = False := by decide
theorem lbrace_ne_quote : (lbrace = '"') = False := by decide
theorem lbrace_ne_lbracket : (lbrace = '[') = False := by decide
theorem dash_ne_lbrace : ('-' = lbrace) = False := by decide
theorem rbrace_ne_comma : (rbrace = ',') = False := by decide
theorem quote_ne_rbrace : ('"' = rbrace) = False := by decide
theorem rbrace_not_digit : rbrace.isDigit = false := by decide

/-! The reader's fuel bound on encoded documents. -/

mutual
theorem fuelNeed_le_enc : (v : Value) → Value.fuelNeed v ≤ 3 * (encChars v).length
  | Value.null => by simp [Value.fuelNeed, encChars]
  | Value.bool true => by simp [Value.fuelNeed, encChars]
  | Value.bool false => by simp [Value.fuelNeed, encChars]
  | Value.num n => by
      have h := List.length_pos.mpr (encChars_ne_nil (Value.num n))
      simp only [Value.fuelNeed]
      omega
  | Value.str s => by
      simp only [Value.fuelNeed, encChars, List.length_cons, List.length_append,
        List.length_singleton]
      omega
  | Value.arr l => by
      have h := fuelNeed_le_items l
      simp only [Value.fuelNeed, encChars, List.length_cons, List.length_append,
        List.length_singleton]
      omega
  | Value.obj m => by
      have h := fuelNeed_le_members m
      simp only [Value.fuelNeed, encChars, List.length_cons, List.length_append,
        List.length_singleton]
      omega

theorem fuelNeed_le_items : (l : ValueList) → ValueList.fuelNeed l ≤ 3 * (encItemsAux l).length + 1
  | ValueList.nil => by simp [ValueList.fuelNeed]
  | ValueList.cons v ValueList.nil => by
      have h := fuelNeed_le_enc v
      simp only [ValueList.fuelNeed, encItemsAux]
      omega
  | ValueList.cons v (ValueList.cons w tl) => by
      have h1 := fuelNeed_le_enc v
      have h2 := fuelNeed_le_items (ValueList.cons w tl)
      simp only [ValueList.fuelNeed, encItemsAux, List.length_append, List.length_cons] at h2 ⊢
      omega

theorem fuelNeed_le_members : (m : ValueMap) →
    ValueMap.fuelNeed m ≤ 3 * (encMembersAux m).length + 1
  | ValueMap.nil => by simp [ValueMap.fuelNeed]
  | ValueMap.cons k v ValueMap.nil => by
      have h := fuelNeed_le_enc v
      simp only [ValueMap.fuelNeed, encMembersAux, List.length_append, List.length_cons]
      omega
  | ValueMap.cons k v (ValueMap.cons k2 w tl) => by
      have h1 := fuelNeed_le_enc v
      have h2 := fuelNeed_le_members (ValueMap.cons k2 w tl)
      simp only [ValueMap.fuelNeed, encMembersAux, List.length_append, List.length_cons] at h2 ⊢
      omega
end

/-! The reader inverts the serializer on every encoded document. -/

mutual
theorem parse_encChars : (v : Value) → ∀ (fuel : Nat) (rest : List Char),
    Value.fuelNeed v ≤ fuel → digitStart rest = false →
    parseVal fuel (encChars v ++ rest) = some (v, rest)
  | Value.null => by
    intro fuel rest hf _
    obtain ⟨f, rfl⟩ : ∃ f, fuel = f + 1 := by
      have h1 : 1 ≤ fuel := by simpa [Value.fuelNeed] using hf
      exact ⟨fuel - 1, by omega⟩
    simp [encChars, parseVal, expectChars]
  | Value.bool true => by
    intro fuel rest hf _
    obtain ⟨f, rfl⟩ : ∃ f, fuel = f + 1 := by
      have h1 : 1 ≤ fuel := by simpa [Value.fuelNeed] using hf
      exact ⟨fuel - 1, by omega⟩
    simp [encChars, parseVal, expectChars]
  | Value.bool false => by
    intro fuel rest hf _
    obtain ⟨f, rfl⟩ : ∃ f, fuel = f + 1 := by
      have h1 : 1 ≤ fuel := by simpa [Value.fuelNeed] using hf
      exact ⟨fuel - 1, by omega⟩
    simp [encChars, parseVal, expectChars]
  | Value.num n => by
    intro fuel rest hf hrest
    obtain ⟨f, rfl⟩ : ∃ f, fuel = f + 1 := by
      have h1 : 1 ≤ fuel := by simpa [Value.fuelNeed] using hf
      exact ⟨fuel - 1, by omega⟩
    by_cases hneg : n < 0
    · have hsplit : takeDigits (natChars n.natAbs ++ rest) = (natChars n.natAbs, rest) :=
        takeDigits_split _ _ (natChars_all_digits _) hrest
      have hne := natChars_ne_nil n.natAbs
      have hval : -((digitsToNat (natChars n.natAbs) : Int)) = n := by
        rw [digitsToNat_natChars]
        omega
      have hgoal : encChars (Value.num n) ++ rest = '-' :: (natChars n.natAbs ++ rest) := by
        simp [encChars, intChars, hneg]
      rw [hgoal]
      simp [parseVal, dash_ne_lbrace, hsplit, hne, hval]
    · obtain ⟨c, ds, henc⟩ : ∃ c ds, natChars n.toNat = c :: ds := by
        cases h : natChars n.toNat with
        | nil => exact absurd h (natChars_ne_nil _)
        | cons c ds => exact ⟨c, ds, rfl⟩
      have hcdig : c.isDigit = true := natChars_all_digits _ c (by rw [henc]; simp)
      have hfacts := isDigit_ne_specials hcdig
      have hsplit2 : takeDigits (c :: (ds ++ rest)) = (natChars n.toNat, rest) := by
        rw [show (c : Char) :: (ds ++ rest) = natChars n.toNat ++ rest from by rw [henc]; rfl]
        exact takeDigits_split _ _ (natChars_all_digits _) hrest
      have hval : ((digitsToNat (natChars n.toNat) : Int)) = n := by
        rw [digitsToNat_natChars]
        omega
      have hgoal : encChars (Value.num n) ++ rest = c :: (ds ++ rest) := by
        simp [encChars, intChars, hneg, henc]
      rw [hgoal]
      simp [parseVal, hcdig, hfacts.1, hfacts.2.1, hfacts.2.2.1, hfacts.2.2.2.1,
        hfacts.2.2.2.2.1, hfacts.2.2.2.2.2.1, hfacts.2.2.2.2.2.2.1, hsplit2, hval]
  | Value.str s => by
    intro fuel rest hf _
    obtain ⟨f, rfl⟩ : ∃ f, fuel = f + 1 := by
      have h1 : 1 ≤ fuel := by simpa [Value.fuelNeed] using hf
      exact ⟨fuel - 1, by omega⟩
    simp [encChars, parseVal, parseStrBody_escape s.data rest, stringMk_data]
  | Value.arr ValueList.nil => by
    intro fuel rest hf _
    obtain ⟨f, rfl⟩ : ∃ f, fuel = f + 2 := by
      have h1 : 2 ≤ fuel := by simpa [Value.fuelNeed, ValueList.fuelNeed] using hf
      exact ⟨fuel - 2, by omega⟩
    simp [encChars, encItemsAux, parseVal, parseArrTail]
  | Value.arr (ValueList.cons v tl) => by
    intro fuel rest hf hrest
    have h1 : 2 + ValueList.fuelNeed (ValueList.cons v tl) ≤ fuel := by
      simpa [Value.fuelNeed] using hf
    obtain ⟨f, rfl⟩ : ∃ f, fuel = f + 2 := ⟨fuel - 2, by omega⟩
    obtain ⟨d, cs0, henc⟩ : ∃ d cs0, encChars v = d :: cs0 := by
      cases h : encChars v with
      | nil => exact absurd h (encChars_ne_nil v)
      | cons d cs0 => exact ⟨d, cs0, rfl⟩
    have hd : ¬ d = ']' := encChars_head_ne_rbracket v d cs0 henc
    obtain ⟨ys, hys⟩ : ∃ ys, encItemsAux (ValueList.cons v tl) = encChars v ++ ys := by
      cases tl with
      | nil => exact ⟨[], by simp [encItemsAux]⟩
      | cons w tl2 => exact ⟨',' :: encItemsAux (ValueList.cons w tl2), rfl⟩
    have hitems := parse_encItems v tl f rest (by omega)
    have hscr : (d :: (cs0 ++ (ys ++ (']' :: rest)))) =
        encItemsAux (ValueList.cons v tl) ++ (']' :: rest) := by
      rw [hys, henc]
      simp
    have hgoal : encChars (Value.arr (ValueList.cons v tl)) ++ rest =
        '[' :: (d :: (cs0 ++ (ys ++ (']' :: rest)))) := by
      simp [encChars, hys, henc]
    rw [hgoal]
    simp [parseVal, parseArrTail, hd, hscr, hitems]
  | Value.obj ValueMap.nil => by
    intro fuel rest hf _
    obtain ⟨f, rfl⟩ : ∃ f, fuel = f + 2 := by
      have h1 : 2 ≤ fuel := by simpa [Value.fuelNeed, ValueMap.fuelNeed] using hf
      exact ⟨fuel - 2, by omega⟩
    simp [encChars, encMembersAux, parseVal, parseObjTail, lbrace_ne_n, lbrace_ne_t,
      lbrace_ne_f, lbrace_ne_quote, lbrace_ne_lbracket]
  | Value.obj (ValueMap.cons k v tl) => by
    intro fuel rest hf hrest
    have h1 : 2 + ValueMap.fuelNeed (ValueMap.cons k v tl) ≤ fuel := by
      simpa [Value.fuelNeed] using hf
    obtain ⟨f, rfl⟩ : ∃ f, fuel = f + 2 := ⟨fuel - 2, by omega⟩
    obtain ⟨zs, hzs⟩ : ∃ zs, encMembersAux (ValueMap.cons k v tl) = '"' :: zs := by
      cases tl with
      | nil => exact ⟨escapeChars k.data ++ ('"' :: (':' :: encChars v)), by
          simp [encMembersAux, keyChars]⟩
      | cons k2 w tl2 => exact ⟨escapeChars k.data ++ ('"' :: (':' :: (encChars v ++
          (',' :: encMembersAux (ValueMap.cons k2 w tl2))))), by
          simp [encMembersAux, keyChars]⟩
    have hm := parse_encMembers k v tl f rest (by omega)
    have hscr : ('"' :: (zs ++ (rbrace :: rest))) =
        encMembersAux (ValueMap.cons k v tl) ++ (rbrace :: rest) := by
      rw [hzs]
      rfl
    have hgoal : encChars (Value.obj (ValueMap.cons k v tl)) ++ rest =
        lbrace :: ('"' :: (zs ++ (rbrace :: rest))) := by
      simp [encChars, hzs]
    rw [hgoal]
    simp [parseVal, parseObjTail, lbrace_ne_n, lbrace_ne_t, lbrace_ne_f, lbrace_ne_quote,
      lbrace_ne_lbracket, quote_ne_rbrace, hscr, hm]
termination_by v => sizeOf v

theorem parse_encItems : (v : Value) → (tl : ValueList) → ∀ (fuel : Nat) (rest : List Char),
    ValueList.fuelNeed (ValueList.cons v tl) ≤ fuel →
    parseItems fuel (encItemsAux (ValueList.cons v tl) ++ (']' :: rest)) =
      some (ValueList.cons v tl, rest)
  | v, ValueList.nil => by
    intro fuel rest hf
    have h1 : 1 + Value.fuelNeed v ≤ fuel := by
      simpa [ValueList.fuelNeed] using hf
    obtain ⟨f, rfl⟩ : ∃ f, fuel = f + 1 := ⟨fuel - 1, by omega⟩
    have hv := parse_encChars v f (']' :: rest) (by omega) rfl
    simp [encItemsAux, parseItems, hv]
  | v, ValueList.cons w tl2 => by
    intro fuel rest hf
    have h1 : 1 + max (Value.fuelNeed v) (ValueList.fuelNeed (ValueList.cons w tl2)) ≤ fuel := by
      simpa [ValueList.fuelNeed] using hf
    obtain ⟨f, rfl⟩ : ∃ f, fuel = f + 1 := ⟨fuel - 1, by omega⟩
    have hv := parse_encChars v f (',' :: (encItemsAux (ValueList.cons w tl2) ++ (']' :: rest)))
      (by omega) rfl
    have hrec := parse_encItems w tl2 f rest (by omega)
    have hassoc : encItemsAux (ValueList.cons v (ValueList.cons w tl2)) ++ (']' :: rest) =
        encChars v ++ (',' :: (encItemsAux (ValueList.cons w tl2) ++ (']' :: rest))) := by
      simp [encItemsAux]
    rw [hassoc]
    simp [parseItems, hv, hrec]
termination_by v tl => sizeOf v + sizeOf tl

theorem parse_encMembers : (k : String) → (v : Value) → (tl : ValueMap) →
    ∀ (fuel : Nat) (rest : List Char),
    ValueMap.fuelNeed (ValueMap.cons k v tl) ≤ fuel →
    parseMembers fuel (encMembersAux (ValueMap.cons k v tl) ++ (rbrace :: rest)) =
      some (ValueMap.cons k v tl, rest)
  | k, v, ValueMap.nil => by
    intro fuel rest hf
    have h1 : 1 + Value.fuelNeed v ≤ fuel := by
      simpa [ValueMap.fuelNeed] using hf
    obtain ⟨f, rfl⟩ : ∃ f, fuel = f + 1 := ⟨fuel - 1, by omega⟩
    have hv := parse_encChars v f (rbrace :: rest) (by omega)
      (by simp [digitStart, rbrace_not_digit])
    have hassoc : encMembersAux (ValueMap.cons k v ValueMap.nil) ++ (rbrace :: rest) =
        '"' :: (escapeChars k.data ++ ('"' :: (':' :: (encChars v ++ (rbrace :: rest))))) := by
      simp [encMembersAux, keyChars]
    rw [hassoc]
    simp [parseMembers, parseStrBody_escape, hv, stringMk_data, rbrace_ne_comma]
  | k, v, ValueMap.cons k2 w tl2 => by
    intro fuel rest hf
    have h1 : 1 + max (Value.fuelNeed v) (ValueMap.fuelNeed (ValueMap.cons k2 w tl2)) ≤ fuel := by
      simpa [ValueMap.fuelNeed] using hf
    obtain ⟨f, rfl⟩ : ∃ f, fuel = f + 1 := ⟨fuel - 1, by omega⟩
    have hv := parse_encChars v f
      (',' :: (encMembersAux (ValueMap.cons k2 w tl2) ++ (rbrace :: rest))) (by omega) rfl
    have hrec := parse_encMembers k2 w tl2 f rest (by omega)
    have hassoc : encMembersAux (ValueMap.cons k v (ValueMap.cons k2 w tl2)) ++
          (rbrace :: rest) =
        '"' :: (escapeChars k.data ++ ('"' :: (':' :: (encChars v ++
          (',' :: (encMembersAux (ValueMap.cons k2 w tl2) ++ (rbrace :: rest))))))) := by
      simp [encMembersAux, keyChars]
    rw [hassoc]
    simp [parseMembers, parseStrBody_escape, hv, hrec, stringMk_data]
termination_by _ v tl => sizeOf v + sizeOf tl
end

/-- The reader run on exactly one encoded document consumes it whole. -/
theorem decodeChars_encChars (d : Value) : decodeChars (encChars d) = some d := by
  have hb := fuelNeed_le_enc d
  have h := parse_encChars d (3 * (encChars d).length + 3) [] (by omega) rfl
  rw [List.append_nil] at h
  simp [decodeChars, h]

/-! Helper lemmas for the operation-level claims. -/

/-- A deploy entry reports failure exactly when it was diagnosed changed
and its put rejected. -/
theorem deployEntry_failed (yload : String → Option Value) (r : Remote) (sp : String)
    (p : String × Value) :
    (deployEntry yload r sp p).2 = true ↔
      secretChanged yload (r.get (sp ++ p.1)) p.2 = true ∧
      r.put (sp ++ p.1) (pushValue p.2) = Except.error () := by
  by_cases hch : secretChanged yload (r.get (sp ++ p.1)) p.2 = true
  · cases hput : r.put (sp ++ p.1) (pushValue p.2) <;>
      simp [deployEntry, hch, hput]
  · simp [deployEntry, hch]

/-- The per-entry decoding of pull fails whenever any listed entry's
value is not JSON text. -/
theorem decodeEntries_none_of_mem : ∀ (sp : String) (params : List (String × String))
    (p : String × String), p ∈ params → jsonParse p.2 = none →
    decodeEntries sp params = none := by
  intro sp params
  induction params with
  | nil => intro p hp _; cases hp
  | cons q rest ih =>
    intro p hp hfail
    rcases List.mem_cons.mp hp with heq | hmem
    · subst heq
      simp [decodeEntries, hfail]
    · cases hq : jsonParse q.2 with
      | none => simp [decodeEntries, hq]
      | some v => simp [decodeEntries, hq, ih p hmem hfail]

/-! The claims. -/

/-- C1: `secretChanged` (the spec's `hasChanged`) returns false iff the
successfully fetched remote raw value decodes to a value deep-strict-equal
to the local value; the deep equality is key-order-insensitive on objects
(permuted entry lists with distinct keys compare equal), order-sensitive
on arrays (element-wise, in order), and scalar-type-sensitive (a number is
never equal to a string). -/
theorem C1_hasChanged_iff_deep_equal :
    (∀ (yload : String → Option Value) (raw : String) (localValue : Value),
      secretChanged yload (Except.ok raw) localValue = false ↔
        ∃ v, yload raw = some v ∧ isDeepStrictEqual localValue v = true)
    ∧ (∀ (a b : List (String × Value)), a.Perm b → (a.map Prod.fst).Nodup →
        isDeepStrictEqual (Value.obj (ValueMap.ofList a)) (Value.obj (ValueMap.ofList b)) = true)
    ∧ (∀ (x y : Value) (xs ys : ValueList),
        isDeepStrictEqual (Value.arr (ValueList.cons x xs)) (Value.arr (ValueList.cons y ys)) =
          (isDeepStrictEqual x y && isDeepStrictEqual (Value.arr xs) (Value.arr ys)))
    ∧ (∀ (n : Int) (s : String),
        isDeepStrictEqual (Value.num n) (Value.str s) = false) := by
  refine ⟨?_, ?_, ?_, ?_⟩
  · intro yload raw localValue
    cases h : yload raw with
    | none => simp [secretChanged, h]
    | some v => simp [secretChanged, h]
  · exact fun a b p hnd => isDeepStrictEqual_obj_perm p hnd
  · intro x y xs ys
    simp [isDeepStrictEqual, canon, canonList, valueBeq, listBeq]
  · intro n s
    rfl

/-- Witness for C1 at concrete inputs: the same two-entry object with its
entries swapped is deep-strict-equal. -/
theorem C1_hasChanged_iff_deep_equal_witness :
    isDeepStrictEqual
      (Value.obj (ValueMap.ofList [("a", Value.num 1), ("b", Value.num 2)]))
      (Value.obj (ValueMap.ofList [("b", Value.num 2), ("a", Value.num 1)])) = true :=
  C1_hasChanged_iff_deep_equal.2.1 [("a", Value.num 1), ("b", Value.num 2)]
    [("b", Value.num 2), ("a", Value.num 1)]
    (List.Perm.swap ("b", Value.num 2) ("a", Value.num 1) [])
    (by decide)

/-- C2: any fetch failure makes `secretChanged` report changed, for every
local value; and it reports unchanged only on a successful fetch plus a
successful decode plus a deep-equal match. -/
theorem C2_hasChanged_true_on_fetch_failure :
    (∀ (yload : String → Option Value) (localValue : Value) (e : Unit),
        secretChanged yload (Except.error e) localValue = true)
    ∧ (∀ (yload : String → Option Value) (fetched : Except Unit String) (localValue : Value),
        secretChanged yload fetched localValue = false →
          ∃ raw v, fetched = Except.ok raw ∧ yload raw = some v ∧
            isDeepStrictEqual localValue v = true) := by
  constructor
  · intro yload localValue e
    rfl
  · intro yload fetched localValue h
    cases fetched with
    | error e => simp [secretChanged] at h
    | ok raw =>
      cases hy : yload raw with
      | none => simp [secretChanged, hy] at h
      | some v =>
        refine ⟨raw, v, rfl, hy, ?_⟩
        simpa [secretChanged, hy] using h

/-- Witness for C2 at concrete inputs. -/
theorem C2_hasChanged_true_on_fetch_failure_witness :
    ∃ raw v, (Except.ok "null" : Except Unit String) = Except.ok raw ∧
      (fun _ => some Value.null : String → Option Value) raw = some v ∧
      isDeepStrictEqual Value.null v = true :=
  C2_hasChanged_true_on_fetch_failure.2 (fun _ => some Value.null) (Except.ok "null")
    Value.null rfl

/-- C3: the namespace prefix is the override verbatim when present and
non-empty, and otherwise exactly "/" ++ service ++ "-" ++ stage ++ "/secrets/". -/
theorem C3_prefix_resolution :
    ∀ (o : Option String) (service stage : String),
      (∀ s, o = some s → s ≠ "" → resolveSsmPath o service stage = s) ∧
      ((o = none ∨ o = some "") →
        resolveSsmPath o service stage = "/" ++ service ++ "-" ++ stage ++ "/secrets/") := by
  intro o service stage
  constructor
  · intro s hs hne
    subst hs
    simp [resolveSsmPath, hne]
  · rintro (h | h) <;> subst h <;> simp [resolveSsmPath]

/-- Witness for C3 at concrete inputs. -/
theorem C3_prefix_resolution_witness :
    resolveSsmPath (some "/custom/") "svc" "dev" = "/custom/" ∧
    resolveSsmPath none "svc" "dev" = "/" ++ "svc" ++ "-" ++ "dev" ++ "/secrets/" :=
  ⟨(C3_prefix_resolution (some "/custom/") "svc" "dev").1 "/custom/" rfl (by decide),
   (C3_prefix_resolution none "svc" "dev").2 (Or.inl rfl)⟩

/-- C4 counterexample: a secrets file whose decoded root is a LIST is
accepted by `parseSecretsFile` (lodash `isObject` returns true for
arrays), not rejected with the invalid-format error as the claim states. -/
theorem C4_list_root_accepted :
    parseSecretsFile (fun _ => some (Value.arr (ValueList.cons (Value.str "a") ValueList.nil)))
      (some "secrets.yml") (some "- a") =
      Except.ok (Value.arr (ValueList.cons (Value.str "a") ValueList.nil)) := by
  rfl

/-- C4 amended: `parseSecretsFile` fails with the invalid-format error
exactly when the decoded root is a scalar or null — a list (array) root
is accepted, because lodash `isObject` treats arrays as objects — and on
that failure deploy aborts with an empty remote-call trace. -/
theorem C4_invalid_format_amended :
    ∀ (yload : String → Option Value) (fp content : String) (v : Value)
      (o : Option String) (svc : ServiceInfo) (r : Remote),
      fp ≠ "" → yload content = some v →
      (isObject v = false →
        parseSecretsFile yload (some fp) (some content) = Except.error PluginError.invalidFormat ∧
        deploySecrets ⟨some fp, o⟩ svc (some content) yload r =
          ([], Except.error PluginError.invalidFormat))
      ∧ (isObject v = true →
          parseSecretsFile yload (some fp) (some content) = Except.ok v)
      ∧ (isObject v = false ↔
          v = Value.null ∨ (∃ b, v = Value.bool b) ∨ (∃ n, v = Value.num n) ∨
            (∃ s, v = Value.str s)) := by
  intro yload fp content v o svc r hfp hy
  refine ⟨?_, ?_, ?_⟩
  · intro hobj
    have hp : parseSecretsFile yload (some fp) (some content) =
        Except.error PluginError.invalidFormat := by
      simp [parseSecretsFile, hfp, hy, hobj]
    exact ⟨hp, by simp [deploySecrets, hp]⟩
  · intro hobj
    simp [parseSecretsFile, hfp, hy, hobj]
  · cases v <;> simp [isObject]

/-- Witness for C4's amended claim at concrete inputs: a numeric root is
rejected before any remote call. -/
theorem C4_invalid_format_amended_witness :
    parseSecretsFile (fun _ => some (Value.num 7)) (some "f") (some "7") =
      Except.error PluginError.invalidFormat ∧
    deploySecrets ⟨some "f", none⟩ ⟨"s", "t"⟩ (some "7") (fun _ => some (Value.num 7))
      { get := fun _ => Except.error (), put := fun _ _ => Except.ok (),
        list := fun _ => Except.ok [], del := fun _ => Except.ok () } =
      ([], Except.error PluginError.invalidFormat) :=
  (C4_invalid_format_amended (fun _ => some (Value.num 7)) "f" "7" (Value.num 7) none
    ⟨"s", "t"⟩
    { get := fun _ => Except.error (), put := fun _ _ => Except.ok (),
      list := fun _ => Except.ok [], del := fun _ => Except.ok () }
    (by decide) rfl).1 rfl

/-- C5 counterexample: `removeSecrets` is invoked without `await`
(src/index.js line 145), so a rejecting `deleteParameters` request does
NOT fail the remove operation: with a remote whose delete rejects, remove
still reports success. -/
theorem C5_remove_ignores_delete_failure :
    removeDeployedSecrets (Except.ok (some "/p"))
      { get := fun _ => Except.error (), put := fun _ _ => Except.error (),
        list := fun _ => Except.ok [("/p/secrets/a", "x")], del := fun _ => Except.error () } =
      ([SSMCall.describeStacks, SSMCall.getParametersByPath "/p/secrets",
        SSMCall.deleteParameters ["/p/secrets/a"]], Except.ok ()) := by
  rfl

/-- C5 amended: in deploy a put rejection is not caught and fails the
overall batch (the operation errors iff some changed entry's put
rejected); in remove the awaited listing's failure propagates, but the
delete request is not awaited, so its result is discarded and remove
succeeds whenever the listing succeeds, regardless of the delete
outcome. -/
theorem C5_write_failure_propagation_amended :
    (∀ (cfg : Config) (svc : ServiceInfo) (fc : Option String)
       (yload : String → Option Value) (r : Remote) (secrets : Value),
       parseSecretsFile yload cfg.file fc = Except.ok secrets →
       ((deploySecrets cfg svc fc yload r).2 = Except.error PluginError.remoteError ↔
         ∃ p ∈ valueEntries secrets,
           secretChanged yload
             (r.get (resolveSsmPath cfg.ssmPath svc.service svc.stage ++ p.1)) p.2 = true ∧
           r.put (resolveSsmPath cfg.ssmPath svc.service svc.stage ++ p.1)
             (pushValue p.2) = Except.error ()))
    ∧ (∀ (pfx : String) (r : Remote), r.list (pfx ++ "/secrets") = Except.error () →
        (removeDeployedSecrets (Except.ok (some pfx)) r).2 =
          Except.error PluginError.remoteError)
    ∧ (∀ (pfx : String) (r : Remote) (params : List (String × String)),
        r.list (pfx ++ "/secrets") = Except.ok params →
        (removeDeployedSecrets (Except.ok (some pfx)) r).2 = Except.ok ()) := by
  refine ⟨?_, ?_, ?_⟩
  · intro cfg svc fc yload r secrets hp
    have hiff : (((valueEntries secrets).map
          (deployEntry yload r (resolveSsmPath cfg.ssmPath svc.service svc.stage))).any
            (fun q => q.2) = true) ↔
        ∃ p ∈ valueEntries secrets,
          secretChanged yload
            (r.get (resolveSsmPath cfg.ssmPath svc.service svc.stage ++ p.1)) p.2 = true ∧
          r.put (resolveSsmPath cfg.ssmPath svc.service svc.stage ++ p.1)
            (pushValue p.2) = Except.error () := by
      rw [List.any_eq_true]
      constructor
      · rintro ⟨q, hq, hq2⟩
        obtain ⟨p, hp, rfl⟩ := List.mem_map.mp hq
        exact ⟨p, hp,
          (deployEntry_failed yload r (resolveSsmPath cfg.ssmPath svc.service svc.stage) p).mp hq2⟩
      · rintro ⟨p, hp, hcond⟩
        exact ⟨deployEntry yload r (resolveSsmPath cfg.ssmPath svc.service svc.stage) p,
          List.mem_map_of_mem _ hp,
          (deployEntry_failed yload r (resolveSsmPath cfg.ssmPath svc.service svc.stage) p).mpr
            hcond⟩
    have hres : (deploySecrets cfg svc fc yload r).2 =
        (if ((valueEntries secrets).map
            (deployEntry yload r (resolveSsmPath cfg.ssmPath svc.service svc.stage))).any
              (fun q => q.2)
          then Except.error PluginError.remoteError else Except.ok ()) := by
      simp [deploySecrets, hp]
    rw [hres]
    by_cases hany : ((valueEntries secrets).map
        (deployEntry yload r (resolveSsmPath cfg.ssmPath svc.service svc.stage))).any
          (fun q => q.2) = true
    · rw [if_pos hany]
      exact ⟨fun _ => hiff.mp hany, fun _ => rfl⟩
    · rw [if_neg hany]
      constructor
      · intro h
        exact absurd h (by simp)
      · intro h
        exact absurd (hiff.mpr h) hany
  · intro pfx r hlist
    simp [removeDeployedSecrets, hlist]
  · intro pfx r params hlist
    simp [removeDeployedSecrets, hlist]

/-- Witness for C5's amended claim at concrete inputs: remove succeeds
with a rejecting delete when the listing succeeds. -/
theorem C5_write_failure_propagation_amended_witness :
    (removeDeployedSecrets (Except.ok (some "/q"))
      { get := fun _ => Except.error (), put := fun _ _ => Except.error (),
        list := fun _ => Except.ok [], del := fun _ => Except.error () }).2 = Except.ok () :=
  C5_write_failure_propagation_amended.2.2 "/q"
    { get := fun _ => Except.error (), put := fun _ _ => Except.error (),
      list := fun _ => Except.ok [], del := fun _ => Except.error () } [] rfl

/-- C6 counterexample: the path join is plain concatenation
`ssmPath ++ name`, with no "/" inserted: with override prefix "/p" and
secret name "n" the deploy get and put both use path "/pn", which differs
from "/p" ++ "/" ++ "n" — so the claimed join rule
`namespacePrefix + "/" + name` does not describe the code. -/
theorem C6_path_join_no_separator :
    deploySecrets ⟨some "sf", some "/p"⟩ ⟨"s", "t"⟩ (some "n: v")
        (fun _ => some (Value.obj (ValueMap.cons "n" (Value.str "v") ValueMap.nil)))
        { get := fun _ => Except.error (), put := fun _ _ => Except.ok (),
          list := fun _ => Except.ok [], del := fun _ => Except.ok () } =
      ([SSMCall.getParameter "/pn", SSMCall.putParameter "/pn" "v"], Except.ok ()) ∧
    "/pn" ≠ "/p" ++ "/" ++ "n" := by
  constructor
  · rfl
  · decide

/-- C6 amended: within deploy each entry's changed-check get and its put
use the identical concatenated path `ssmPath ++ name` (same prefix and
same join for the put and the later get of one name); pull lists at
exactly the resolved prefix; remove lists at the recorded stack prefix
++ "/secrets" and deletes exactly the names the listing returned. -/
theorem C6_path_join_amended :
    (∀ (yload : String → Option Value) (r : Remote) (sp : String) (p : String × Value),
        (deployEntry yload r sp p).1 = [SSMCall.getParameter (sp ++ p.1)] ∨
        (deployEntry yload r sp p).1 =
          [SSMCall.getParameter (sp ++ p.1),
           SSMCall.putParameter (sp ++ p.1) (pushValue p.2)])
    ∧ (∀ (cfg : Config) (svc : ServiceInfo) (r : Remote) (fp : String),
        cfg.file = some fp → fp ≠ "" →
        (pullDeployedSecrets cfg svc r).1 =
          [SSMCall.getParametersByPath (resolveSsmPath cfg.ssmPath svc.service svc.stage)])
    ∧ (∀ (pfx : String) (r : Remote) (params : List (String × String)),
        r.list (pfx ++ "/secrets") = Except.ok params →
        (removeDeployedSecrets (Except.ok (some pfx)) r).1 =
          [SSMCall.describeStacks, SSMCall.getParametersByPath (pfx ++ "/secrets"),
           SSMCall.deleteParameters (params.map Prod.fst)]) := by
  refine ⟨?_, ?_, ?_⟩
  · intro yload r sp p
    by_cases hch : secretChanged yload (r.get (sp ++ p.1)) p.2 = true
    · right
      cases hput : r.put (sp ++ p.1) (pushValue p.2) <;>
        simp [deployEntry, hch, hput]
    · left
      simp [deployEntry, hch]
  · intro cfg svc r fp hf hne
    cases hlist : r.list (resolveSsmPath cfg.ssmPath svc.service svc.stage) with
    | error e => simp [pullDeployedSecrets, hf, hne, hlist]
    | ok params =>
      cases hdec : decodeEntries (resolveSsmPath cfg.ssmPath svc.service svc.stage) params with
      | none => simp [pullDeployedSecrets, hf, hne, hlist, hdec]
      | some entries => simp [pullDeployedSecrets, hf, hne, hlist, hdec]
  · intro pfx r params hlist
    simp [removeDeployedSecrets, hlist]

/-- Witness for C6's amended claim at concrete inputs. -/
theorem C6_path_join_amended_witness :
    (pullDeployedSecrets ⟨some "f", some "/p/"⟩ ⟨"s", "t"⟩
       { get := fun _ => Except.error (), put := fun _ _ => Except.ok (),
         list := fun _ => Except.ok [], del := fun _ => Except.ok () }).1 =
      [SSMCall.getParametersByPath (resolveSsmPath (some "/p/") "s" "t")] :=
  C6_path_join_amended.2.1 ⟨some "f", some "/p/"⟩ ⟨"s", "t"⟩
    { get := fun _ => Except.error (), put := fun _ _ => Except.ok (),
      list := fun _ => Except.ok [], del := fun _ => Except.ok () } "f" rfl (by decide)

/-- C7: an absent or empty `file` setting makes both deploy and pull fail
with the missing-config error with an empty remote-call trace (the error
is raised before any remote call). -/
theorem C7_missing_file_config :
    ∀ (cfg : Config) (svc : ServiceInfo) (fileContent : Option String)
      (yload : String → Option Value) (r : Remote),
      (cfg.file = none ∨ cfg.file = some "") →
        deploySecrets cfg svc fileContent yload r =
          ([], Except.error PluginError.missingConfig) ∧
        pullDeployedSecrets cfg svc r = ([], Except.error PluginError.missingConfig) := by
  intro cfg svc fileContent yload r h
  rcases h with h | h <;>
    exact ⟨by simp [deploySecrets, parseSecretsFile, h],
           by simp [pullDeployedSecrets, h]⟩

/-- Witness for C7 at concrete inputs. -/
theorem C7_missing_file_config_witness :
    deploySecrets ⟨none, none⟩ ⟨"s", "t"⟩ none (fun _ => none)
        { get := fun _ => Except.error (), put := fun _ _ => Except.ok (),
          list := fun _ => Except.ok [], del := fun _ => Except.ok () } =
      ([], Except.error PluginError.missingConfig) ∧
    pullDeployedSecrets ⟨none, none⟩ ⟨"s", "t"⟩
        { get := fun _ => Except.error (), put := fun _ _ => Except.ok (),
          list := fun _ => Except.ok [], del := fun _ => Except.ok () } =
      ([], Except.error PluginError.missingConfig) :=
  C7_missing_file_config ⟨none, none⟩ ⟨"s", "t"⟩ none (fun _ => none)
    { get := fun _ => Except.error (), put := fun _ _ => Except.ok (),
      list := fun _ => Except.ok [], del := fun _ => Except.ok () } (Or.inl rfl)

/-- C8: with a configured (truthy) file path naming a file that does not
exist, deploy succeeds with an empty remote-call trace: the decoder is
never consulted (the result holds uniformly in `yload`), no error is
raised, and zero write calls are made. -/
theorem C8_missing_file_noop :
    ∀ (cfg : Config) (svc : ServiceInfo) (yload : String → Option Value) (r : Remote)
      (fp : String), cfg.file = some fp → fp ≠ "" →
      deploySecrets cfg svc none yload r = ([], Except.ok ()) := by
  intro cfg svc yload r fp hf hne
  simp [deploySecrets, parseSecretsFile, hf, hne, valueEntries, ValueMap.toPairs, concatAll]

/-- Witness for C8 at concrete inputs. -/
theorem C8_missing_file_noop_witness :
    deploySecrets ⟨some "secrets.yml", none⟩ ⟨"s", "t"⟩ none (fun _ => none)
        { get := fun _ => Except.error (), put := fun _ _ => Except.error (),
          list := fun _ => Except.error (), del := fun _ => Except.error () } =
      ([], Except.ok ()) :=
  C8_missing_file_noop ⟨some "secrets.yml", none⟩ ⟨"s", "t"⟩ (fun _ => none)
    { get := fun _ => Except.error (), put := fun _ _ => Except.error (),
      list := fun _ => Except.error (), del := fun _ => Except.error () }
    "secrets.yml" rfl (by decide)

/-- C9: decoding the encoding of any document yields exactly the same
document — in particular a value-equal one — for every value composed of
scalars and nested arrays/objects (the codec being the spec-modelled
secrets-file codec). -/
theorem C9_codec_round_trip :
    ∀ d : Value, SecretsFileCodec.decode (SecretsFileCodec.encode d) = some d := by
  intro d
  show decodeChars (String.mk (encChars d)).data = some d
  rw [data_stringMk]
  exact decodeChars_encChars d

/-- C10: deploy writes scalar string secrets verbatim (`pushValue` of a
string is that string); strict JSON parsing rejects a bare scalar word
such as "pw1"; and whenever some listed remote value is not JSON text,
pull fails with the JSON error after only the listing call and produces
no written file content. -/
theorem C10_pull_strict_json :
    (∀ s : String, pushValue (Value.str s) = s)
    ∧ jsonParse "pw1" = none
    ∧ (∀ (cfg : Config) (svc : ServiceInfo) (r : Remote) (fp : String)
         (params : List (String × String)) (p : String × String),
        cfg.file = some fp → fp ≠ "" →
        r.list (resolveSsmPath cfg.ssmPath svc.service svc.stage) = Except.ok params →
        p ∈ params → jsonParse p.2 = none →
        pullDeployedSecrets cfg svc r =
          ([SSMCall.getParametersByPath (resolveSsmPath cfg.ssmPath svc.service svc.stage)],
           Except.error PluginError.jsonError)) := by
  refine ⟨?_, ?_, ?_⟩
  · intro s
    rfl
  · rfl
  · intro cfg svc r fp params p hf hne hlist hmem hfail
    have hdec := decodeEntries_none_of_mem (resolveSsmPath cfg.ssmPath svc.service svc.stage)
      params p hmem hfail
    simp [pullDeployedSecrets, hf, hne, hlist, hdec]

/-- Witness for C10 at concrete inputs: a remote entry holding the bare
scalar "pw1" (as deploy writes string secrets) makes pull fail. -/
theorem C10_pull_strict_json_witness :
    pullDeployedSecrets ⟨some "f", some "/p/"⟩ ⟨"s", "t"⟩
        { get := fun _ => Except.error (), put := fun _ _ => Except.ok (),
          list := fun _ => Except.ok [("/p/db", "pw1")], del := fun _ => Except.ok () } =
      ([SSMCall.getParametersByPath (resolveSsmPath (some "/p/") "s" "t")],
       Except.error PluginError.jsonError) :=
  C10_pull_strict_json.2.2 ⟨some "f", some "/p/"⟩ ⟨"s", "t"⟩
    { get := fun _ => Except.error (), put := fun _ _ => Except.ok (),
      list := fun _ => Except.ok [("/p/db", "pw1")], del := fun _ => Except.ok () }
    "f" [("/p/db", "pw1")] ("/p/db", "pw1") rfl (by decide) rfl (by simp) rfl
